import Mathlib

/-!
Verification development for the autobrunodoc tool (src/autobrunodoc.py):
an OpenAPI v3.0 documentation extractor and Bruno collection-file patcher
with backup and revert support.

The definitions below are a shallow embedding of the Python source.
Python dictionaries become association lists with insert-or-overwrite
semantics, Python truthiness is modelled on scalar YAML values, and the
regex and string-splicing operations of the doc injector are modelled as
executable functions on lists of characters.  Filesystem state for the
revert engine is a list of (directory, filename, content) records.
-/

/-- Scalar YAML/Python value, as produced by the YAML loader for the
fields this tool inspects with truthiness checks and string formatting.
Scalar values suffice for the documented behavior of those checks. -/
inductive PyVal where
  | vnone
  | vbool (b : Bool)
  | vint (n : Int)
  | vstr (s : String)
deriving DecidableEq

/-- Python truthiness of a scalar value: None, False, 0 and the empty
string are falsy, everything else is truthy. -/
def pyTruthy : PyVal → Bool
  | .vnone => false
  | .vbool b => b
  | .vint n => decide (n ≠ 0)
  | .vstr s => decide (s ≠ "")

/-- Python str() of a scalar value, as used by f-string interpolation. -/
def pyStr : PyVal → String
  | .vnone => "None"
  | .vbool true => "True"
  | .vbool false => "False"
  | .vint n => toString n
  | .vstr s => s

/-- One OpenAPI parameter object.  Absent keys are `none`; the source
reads each key with dict.get and a default.  The source key `in` is a
Lean keyword and is modelled as `location`; the source key `example` is
a Lean keyword and is modelled as `exampleV`. -/
structure Param where
  name : Option String
  location : Option String
  required : Option PyVal
  description : Option String
  exampleV : Option PyVal
deriving DecidableEq

/-- One property of a request-body schema. -/
structure PropSchema where
  type : Option String
  format : Option String
  description : Option String
deriving DecidableEq

/-- A schema object: properties, required list, and (for response
schemas) an example value.  The source key `example` is modelled as
`exampleV`. -/
structure SchemaObj where
  properties : Option (List (String × PropSchema))
  required : Option (List String)
  exampleV : Option PyVal
deriving DecidableEq

/-- A media object under a content type: schema and example. -/
structure MediaObj where
  schema : Option SchemaObj
  exampleV : Option PyVal
deriving DecidableEq

/-- A requestBody object: content types in document order. -/
structure RequestBody where
  content : Option (List (String × MediaObj))
deriving DecidableEq

/-- A response object: description and content types. -/
structure ResponseObj where
  description : Option String
  content : Option (List (String × MediaObj))
deriving DecidableEq

/-- One OpenAPI operation.  Fields mirror the keys read by
extract_openapi_docs; an absent key is `none`. -/
structure Operation where
  tags : Option (List String)
  summary : Option String
  description : Option String
  security : Option (List (List (String × List String)))
  parameters : Option (List Param)
  requestBody : Option RequestBody
  responses : Option (List (String × ResponseObj))
deriving DecidableEq

/-- Model of the external library call
yaml.dump(v, default_flow_style=False).strip().split(chr(10)) for the
scalar values of this embedding.  PyYAML terminates a scalar document
with an end marker line. -/
def yamlDumpLines : PyVal → List String
  | .vnone => ["null", "..."]
  | .vbool true => ["true", "..."]
  | .vbool false => ["false", "..."]
  | .vint n => [toString n, "..."]
  | .vstr s => [s, "..."]

/-- Description section of the documentation text (source lines 78-80). -/
def descriptionLines (op : Operation) : List String :=
  match op.description with
  | some d => ["Description: " ++ d ++ "\n"]
  | none => []

/-- Security section (source lines 82-89): scheme names collected from
every security item, comma-joined; emitted only when nonempty. -/
def securityLines (op : Operation) : List String :=
  match op.security with
  | none => []
  | some items =>
    let schemes := items.flatMap (fun item => item.map Prod.fst)
    if schemes.isEmpty then []
    else ["Security: " ++ String.intercalate ", " schemes ++ "\n"]

/-- The required/optional choice for a parameter bullet
(source line 97): Python truthiness of param.get with default False. -/
def paramRequiredStr (p : Param) : String :=
  if pyTruthy (p.required.getD (.vbool false)) then "required" else "optional"

/-- The bullet line for a parameter (source line 101). -/
def paramBullet (p : Param) : String :=
  "  * " ++ p.name.getD "" ++ " (" ++ p.location.getD "" ++ ", " ++
    paramRequiredStr p ++ "): " ++ p.description.getD ""

/-- The lines contributed by one parameter (source lines 95-103): the
bullet, then an Example line only when the example value is truthy
(param.get with default empty string). -/
def paramLines (p : Param) : List String :=
  let pe := p.exampleV.getD (.vstr "")
  if pyTruthy pe then [paramBullet p, "\n    Example: " ++ pyStr pe]
  else [paramBullet p]

/-- Parameters section (source lines 92-104): header, one entry per
parameter, trailing blank line.  Present exactly when the parameters
key is present. -/
def parametersLines (op : Operation) : List String :=
  match op.parameters with
  | none => []
  | some ps => "Parameters:" :: (ps.flatMap paramLines ++ [""])

/-- The bullet line for one body schema property (source lines 116-125). -/
def propLine (pr : String × PropSchema) : String :=
  let t := pr.2.type.getD ""
  let f := pr.2.format.getD ""
  let typeStr := if decide (f ≠ "") = true
    then "(" ++ t ++ ", " ++ f ++ ")" else "(" ++ t ++ ")"
  "  * " ++ pr.1 ++ ": " ++ pr.2.description.getD "" ++ " " ++ typeStr

/-- Lines for a body schema: property bullets, then the required list
when the schema declares one (source lines 115-129; the required line
is emitted only inside the properties branch). -/
def schemaLines (schema : SchemaObj) : List String :=
  match schema.properties with
  | none => []
  | some props =>
    props.map propLine ++
      (match schema.required with
       | some reqs => ["\n  Required body properties: " ++ String.intercalate ", " reqs]
       | none => [])

/-- Example lines for a body content entry (source lines 131-136). -/
def mediaExampleLines (m : MediaObj) : List String :=
  match m.exampleV with
  | some ex => "\n  Example:" :: (yamlDumpLines ex).map (fun l => "      " ++ l)
  | none => []

/-- Lines for one requestBody content-type entry (source lines 111-136). -/
def bodyContentLines (ct : String × MediaObj) : List String :=
  ("  Content-Type: " ++ ct.1) ::
    ((match ct.2.schema with
      | some sch => schemaLines sch
      | none => []) ++ mediaExampleLines ct.2)

/-- Body section (source lines 106-137): present exactly when the
requestBody key is present. -/
def bodyLines (op : Operation) : List String :=
  match op.requestBody with
  | none => []
  | some rb =>
    "Body:" :: ((rb.content.getD []).flatMap bodyContentLines ++ [""])

/-- Example lines for a response content entry (source lines 147-162):
a direct content example, else a schema example, else nothing. -/
def respContentLines (cm : String × MediaObj) : List String :=
  match cm.2.exampleV with
  | some ex =>
    ("\n    Example (" ++ cm.1 ++ "):") :: "" ::
      (yamlDumpLines ex).map (fun l => "      " ++ l)
  | none =>
    match cm.2.schema with
    | some sch =>
      match sch.exampleV with
      | some ex =>
        ("\n    Example (" ++ cm.1 ++ "):") :: "" ::
          (yamlDumpLines ex).map (fun l => "      " ++ l)
      | none => []
    | none => []

/-- Lines for one response status entry (source lines 142-162). -/
def responseLines (sr : String × ResponseObj) : List String :=
  ("  * " ++ sr.1 ++ ": " ++ sr.2.description.getD "") ::
    (match sr.2.content with
     | some cs => cs.flatMap respContentLines
     | none => [])

/-- Responses section (source lines 139-163): present exactly when the
responses key is present. -/
def responsesLines (op : Operation) : List String :=
  match op.responses with
  | none => []
  | some rs => "Responses:" :: (rs.flatMap responseLines ++ [""])

/-- The full documentation line list for one operation, in the order
the source appends the sections (lines 76-163). -/
def operationDocs (op : Operation) : List String :=
  descriptionLines op ++ securityLines op ++ parametersLines op ++
    bodyLines op ++ responsesLines op

/-- The HTTP method keys recognized by the extractor (source line 64). -/
def httpMethods : List String :=
  ["get", "post", "put", "delete", "patch", "options", "head", "trace"]

/-- Python dict insertion on an association list: overwrite in place
when the key is present, append otherwise. -/
def dictInsert {K V : Type} [DecidableEq K]
    (m : List (K × V)) (k : K) (v : V) : List (K × V) :=
  if m.any (fun p => decide (p.1 = k)) then
    m.map (fun p => if p.1 = k then (k, v) else p)
  else m ++ [(k, v)]

/-- Number of entries of an association list carrying a given key. -/
def keyCount {K V : Type} [DecidableEq K] (m : List (K × V)) (k : K) : Nat :=
  m.countP (fun e => decide (e.1 = k))

/-- The key of one stored documentation entry:
(tag, upper-cased method, path, summary) (source line 167). -/
def DocKey : Type := String × String × String × String

instance : DecidableEq DocKey := by
  unfold DocKey
  infer_instance

/-- Extractor state: the path_docs dictionary and the warnings printed
so far. -/
structure ExtractState where
  path_docs : List (DocKey × String)
  warnings : List String
deriving DecidableEq

/-- The warning printed for an operation missing tags or summary
(source line 72). -/
def missingMsg (method path : String) : String :=
  "Warning: Missing tags or summary for " ++ method.toUpper ++ " " ++ path

/-- Storing the documentation once per tag the operation carries
(source lines 166-168). -/
def storeTags (kf : String → DocKey) (text : String)
    (d : List (DocKey × String)) (tags : List String) : List (DocKey × String) :=
  tags.foldl (fun d t => dictInsert d (kf t) text) d

/-- Processing of one (method, operation) entry of a path item
(source lines 62-168): skip non-HTTP keys, warn and skip when tags or
summary are missing, otherwise build the text and store it per tag. -/
def processOperation (st : ExtractState) (path : String)
    (mo : String × Operation) : ExtractState :=
  if httpMethods.contains mo.1 then
    if (mo.2.tags.getD []).isEmpty || (mo.2.summary.getD "") == "" then
      { st with warnings := st.warnings ++ [missingMsg mo.1 path] }
    else
      { st with path_docs := storeTags (fun t => (t, mo.1.toUpper, path, mo.2.summary.getD "")) (String.intercalate "\n" (operationDocs mo.2)) st.path_docs (mo.2.tags.getD []) }
  else st

/-- Processing of all method entries of one path item (source line 62). -/
def processPathItem (st : ExtractState) (path : String)
    (item : List (String × Operation)) : ExtractState :=
  item.foldl (fun s mo => processOperation s path mo) st

/-- The extractor over the paths mapping of the document
(source lines 57-170). -/
def extract_openapi_docs
    (paths : List (String × List (String × Operation))) : ExtractState :=
  paths.foldl (fun st pi => processPathItem st pi.1 pi.2) ⟨[], []⟩

/-- Fuel-indexed model of Python str.replace: replace every
non-overlapping occurrence of pat, scanning left to right.  The fuel is
the length of the remaining input, so the recursion is structural and
the function evaluates by kernel reduction.  An empty pattern never
matches here; the source only ever replaces nonempty patterns. -/
def pyReplaceFuel (pat rep : List Char) : Nat → List Char → List Char
  | _, [] => []
  | 0, s => s
  | Nat.succ n, c :: cs =>
    if pat ≠ [] ∧ (c :: cs).take pat.length = pat then
      rep ++ pyReplaceFuel pat rep n (cs.drop (pat.length - 1))
    else
      c :: pyReplaceFuel pat rep n cs

/-- Python str.replace(pat, rep) on character lists. -/
def pyReplace (pat rep s : List Char) : List Char :=
  pyReplaceFuel pat rep s.length s

/-- The whitespace class of the Python regex escape used by the
docs/meta block patterns, for ASCII input. -/
def isPySpace (c : Char) : Bool :=
  c == ' ' || c == '\t' || c == '\n' || c == '\r' || c == '\x0b' || c == '\x0c'

/-- Python str.strip of trailing whitespace. -/
def pyRStripL (s : List Char) : List Char :=
  (s.reverse.dropWhile isPySpace).reverse

/-- Python str.strip: leading and trailing whitespace removed. -/
def pyStripL (s : List Char) : List Char :=
  pyRStripL (s.dropWhile isPySpace)

/-- Whether the regex pattern kw-whitespace-brace-span matches at the
start of s (the pattern of source lines 216 and 232 anchored at one
position).  Both quantifiers of that pattern are greedy and cannot
backtrack usefully, so a maximal-munch scan is exact.  Returns the
matched span. -/
def matchBlockAt (kw s : List Char) : Option (List Char) :=
  if s.take kw.length = kw then
    match (s.drop kw.length).dropWhile isPySpace with
    | '{' :: r3 =>
      match r3.dropWhile (fun ch => !(ch == '{') && !(ch == '}')) with
      | '}' :: _ =>
        some (kw ++ (s.drop kw.length).takeWhile isPySpace ++
          '{' :: (r3.takeWhile (fun ch => !(ch == '{') && !(ch == '}')) ++ ['}']))
      | _ => none
    | _ => none
  else none

/-- re.search for the block pattern: the match at the smallest starting
index, returned with that index. -/
def searchBlock (kw : List Char) : List Char → Option (Nat × List Char)
  | [] => none
  | c :: rest =>
    match matchBlockAt kw (c :: rest) with
    | some m => some (0, m)
    | none => (searchBlock kw rest).map (fun im => (im.1 + 1, im.2))

/-- The docs keyword of the pattern on source line 216. -/
def docsKw : List Char := ['d', 'o', 'c', 's']

/-- The meta keyword of the pattern on source line 232. -/
def metaKw : List Char := ['m', 'e', 't', 'a']

/-- Two newlines, the separator the injector inserts. -/
def nl2L : List Char := ['\n', '\n']

/-- A fresh docs element for a file with no docs block
(source line 228). -/
def newDocsElem (B : List Char) : List Char :=
  ['d', 'o', 'c', 's', ' ', '{', '\n'] ++ B ++ '\n' :: ['}']

/-- The content transformation of update_bruno_files for one file
(source lines 215-240): merge into an existing docs block found by the
regex, replacing the matched text with Python str.replace; otherwise
insert a new docs element after the meta block, or prepend it. -/
def update_bru_content (docsText bru : List Char) : List Char :=
  match searchBlock docsKw bru with
  | some im =>
    pyReplace im.2
      (pyStripL im.2.dropLast ++ nl2L ++ docsText ++ '\n' :: ['}']) bru
  | none =>
    match searchBlock metaKw bru with
    | some im =>
      bru.take (im.1 + im.2.length) ++ nl2L ++ newDocsElem docsText ++
        bru.drop (im.1 + im.2.length)
    | none => newDocsElem docsText ++ nl2L ++ bru

/-- The backup extension as characters. -/
def bakL : List Char := ['.', 'b', 'a', 'k']

/-- The working extension as characters. -/
def bruL : List Char := ['.', 'b', 'r', 'u']

/-- The backup path of a collection file (source line 208): Python
str.replace of every occurrence of the working extension. -/
def backupPath (p : List Char) : List Char :=
  pyReplace bruL bakL p

/-- One file of the workspace tree: directory, filename, content.  The
list order of a workspace models the enumeration order of the
directory walk. -/
structure BrunoFile where
  dir : String
  name : List Char
  content : List Char
deriving DecidableEq

/-- The (directory, filename) key of a workspace file. -/
def fileKey (f : BrunoFile) : String × List Char := (f.dir, f.name)

/-- os.path.exists for a workspace file. -/
def existsFile (ws : List BrunoFile) (d : String) (n : List Char) : Bool :=
  ws.any (fun f => decide (f.dir = d ∧ f.name = n))

/-- Reading a workspace file record by key. -/
def findFile (ws : List BrunoFile) (d : String) (n : List Char) : Option BrunoFile :=
  ws.find? (fun f => decide (f.dir = d ∧ f.name = n))

/-- One overwriting file write: directory, filename, new content. -/
def applyWrite (w : String × List Char × List Char) (f : BrunoFile) : BrunoFile :=
  if f.dir = w.1 ∧ f.name = w.2.1 then { f with content := w.2.2 } else f

/-- Overwriting the content of every record with the given key
(a filesystem has one; shutil.copy2 onto an existing file). -/
def setContent (ws : List BrunoFile) (d : String) (n c : List Char) : List BrunoFile :=
  ws.map (applyWrite (d, n, c))

/-- A sequence of overwriting writes, applied in order. -/
def applyWrites (ws : List BrunoFile)
    (L : List (String × List Char × List Char)) : List BrunoFile :=
  L.foldl (fun acc w => acc.map (applyWrite w)) ws

/-- The cumulative effect of a write sequence on one file: the last
write to its key wins. -/
def overwriteBy (L : List (String × List Char × List Char)) (f : BrunoFile) : BrunoFile :=
  match L.reverse.find? (fun w => decide (f.dir = w.1 ∧ f.name = w.2.1)) with
  | some w => { f with content := w.2.2 }
  | none => f

/-- Python str.endswith on character lists. -/
def endsWithL (suf s : List Char) : Bool :=
  decide (s.drop (s.length - suf.length) = suf)

/-- Whether a filename is selected by the backup scan
(source line 271). -/
def isBakName (n : List Char) : Bool := endsWithL bakL n

/-- The working filename derived from a backup filename
(source line 276): Python str.replace of every occurrence. -/
def bakToBru (n : List Char) : List Char := pyReplace bakL bruL n

/-- One printed line of the revert engine (source lines 284-289). -/
inductive RevertMsg where
  | reverted (dir : String) (name : List Char)
  | notFound (dir : String) (name : List Char)
  | copyError (dir : String) (name : List Char)
deriving DecidableEq

/-- Result of the revert engine: final workspace, count of successful
restores, printed lines. -/
structure RevertResult where
  fs : List BrunoFile
  count : Nat
  msgs : List RevertMsg
deriving DecidableEq

/-- Processing of one backup file (source lines 273-289).  The copyOk
parameter models the environment outcome of the shutil.copy2 call; an
exception takes the error branch without raising. -/
def revertStep (copyOk : String → List Char → Bool)
    (acc : RevertResult) (bak : BrunoFile) : RevertResult :=
  if existsFile acc.fs bak.dir (bakToBru bak.name) then
    if copyOk bak.dir bak.name then
      match findFile acc.fs bak.dir bak.name with
      | some src =>
        { fs := setContent acc.fs bak.dir (bakToBru bak.name) src.content,
          count := acc.count + 1,
          msgs := acc.msgs ++ [.reverted bak.dir (bakToBru bak.name)] }
      | none => { acc with msgs := acc.msgs ++ [.copyError bak.dir (bakToBru bak.name)] }
    else { acc with msgs := acc.msgs ++ [.copyError bak.dir (bakToBru bak.name)] }
  else { acc with msgs := acc.msgs ++ [.notFound bak.dir (bakToBru bak.name)] }

/-- The revert engine (source lines 249-291): walk the workspace, and
for every backup file restore the corresponding working file when it
exists, counting successes. -/
def revert_bruno_files (copyOk : String → List Char → Bool)
    (ws : List BrunoFile) : RevertResult :=
  (ws.filter (fun f => isBakName f.name)).foldl (revertStep copyOk) ⟨ws, 0, []⟩

/-- The write performed for one backup file, when one happens, computed
against the initial workspace. -/
def stepWrite (ws0 : List BrunoFile) (copyOk : String → List Char → Bool)
    (b : BrunoFile) : Option (String × List Char × List Char) :=
  if existsFile ws0 b.dir (bakToBru b.name) && copyOk b.dir b.name then
    some (b.dir, bakToBru b.name, b.content)
  else none

/-- The writes performed by one revert run. -/
def writesOf (ws0 : List BrunoFile) (copyOk : String → List Char → Bool)
    (baks : List BrunoFile) : List (String × List Char × List Char) :=
  baks.filterMap (stepWrite ws0 copyOk)

/-- The line printed for one backup file. -/
def msgOf (ws0 : List BrunoFile) (copyOk : String → List Char → Bool)
    (b : BrunoFile) : RevertMsg :=
  if existsFile ws0 b.dir (bakToBru b.name) then
    if copyOk b.dir b.name then .reverted b.dir (bakToBru b.name)
    else .copyError b.dir (bakToBru b.name)
  else .notFound b.dir (bakToBru b.name)

/-- The revert subcommand of main (source lines 369-399): exit 1 when
the workspace directory is missing, exit 0 otherwise, whatever the
reverted count. -/
def revertCommand (dirOk : Bool) (copyOk : String → List Char → Bool)
    (ws : List BrunoFile) : RevertResult × Nat :=
  if dirOk then (revert_bruno_files copyOk ws, 0) else (⟨ws, 0, []⟩, 1)

/-- The YAML root object at the granularity inspected by the loader:
a mapping root with its openapi field among the entries, or a
non-mapping root (on which dict.get raises). -/
inductive YamlDoc where
  | mapping (entries : List (String × PyVal))
  | nonMapping
deriving DecidableEq

/-- The environment outcome of opening and YAML-parsing the input
file, the two external effects of the loader. -/
inductive ReadOutcome where
  | ioError (msg : String)
  | yamlError (msg : String)
  | parsed (doc : YamlDoc)
deriving DecidableEq

/-- The observable result of the loader: the returned document, or the
None return tagged with which error branch printed (source lines
44-54). -/
inductive LoadResult where
  | success (doc : YamlDoc)
  | parseError (msg : String)
  | formatError
  | readError (msg : String)
deriving DecidableEq

/-- dict lookup of a string key in a mapping root. -/
def lookupKey (k : String) (entries : List (String × PyVal)) : Option PyVal :=
  (entries.find? (fun e => e.1 == k)).map (fun e => e.2)

/-- Python str.startswith, computed on the character lists. -/
def pyStartsWith (s pre : String) : Bool :=
  decide (s.toList.take pre.toList.length = pre.toList)

/-- validate_openapi_file (source lines 38-54): YAML errors and read
errors are caught and reported distinctly; a parsed root is accepted
exactly when its openapi field is a string starting with 3.0.  A
non-mapping root, or a non-string openapi value, raises inside the try
block and is caught by the generic except branch. -/
def validate_openapi_file (r : ReadOutcome) : LoadResult :=
  match r with
  | .yamlError e => .parseError e
  | .ioError e => .readError e
  | .parsed .nonMapping => .readError "AttributeError"
  | .parsed (.mapping entries) =>
    match (lookupKey "openapi" entries).getD (.vstr "") with
    | .vstr s => if pyStartsWith s "3.0" then .success (.mapping entries) else .formatError
    | _ => .readError "AttributeError"

theorem dict_any_iff {K V : Type} [DecidableEq K] (m : List (K × V)) (k : K) :
    m.any (fun p => decide (p.1 = k)) = true ↔ 0 < keyCount m k := by
  unfold keyCount
  rw [List.any_eq_true, List.countP_pos_iff]

theorem keyCount_insert_self {K V : Type} [DecidableEq K]
    (m : List (K × V)) (k : K) (v : V) :
    keyCount (dictInsert m k v) k =
      if keyCount m k = 0 then 1 else keyCount m k := by
  unfold dictInsert
  by_cases h : m.any (fun p => decide (p.1 = k)) = true
  · rw [if_pos h]
    have hpos : 0 < keyCount m k := (dict_any_iff m k).mp h
    rw [if_neg (Nat.pos_iff_ne_zero.mp hpos)]
    unfold keyCount
    rw [List.countP_map]
    apply List.countP_congr
    intro p _
    by_cases hpk : p.1 = k
    · simp [hpk]
    · simp [hpk]
  · rw [if_neg h]
    have h0 : keyCount m k = 0 := by
      by_contra hne
      exact h ((dict_any_iff m k).mpr (Nat.pos_of_ne_zero hne))
    rw [if_pos h0]
    unfold keyCount at h0 ⊢
    rw [List.countP_append, h0]
    simp

theorem keyCount_insert_ne {K V : Type} [DecidableEq K]
    (m : List (K × V)) (k : K) (v : V) (k' : K) (h : k' ≠ k) :
    keyCount (dictInsert m k v) k' = keyCount m k' := by
  unfold dictInsert keyCount
  by_cases ha : m.any (fun p => decide (p.1 = k)) = true
  · rw [if_pos ha, List.countP_map]
    apply List.countP_congr
    intro p _
    simp only [Function.comp_apply]
    by_cases hpk : p.1 = k
    · rw [if_pos hpk, hpk]
    · rw [if_neg hpk]
  · rw [if_neg ha, List.countP_append]
    have hkk : decide ((k, v).1 = k') = false := decide_eq_false (Ne.symm h)
    simp [hkk]

theorem dictInsert_mem {K V : Type} [DecidableEq K]
    (m : List (K × V)) (k : K) (v : V) :
    ∀ e ∈ dictInsert m k v, e = (k, v) ∨ e ∈ m := by
  intro e he
  unfold dictInsert at he
  by_cases ha : m.any (fun p => decide (p.1 = k)) = true
  · rw [if_pos ha] at he
    obtain ⟨p, hp, hep⟩ := List.mem_map.mp he
    by_cases hpk : p.1 = k
    · rw [if_pos hpk] at hep
      exact Or.inl hep.symm
    · rw [if_neg hpk] at hep
      exact Or.inr (hep ▸ hp)
  · rw [if_neg ha] at he
    rcases List.mem_append.mp he with h1 | h1
    · exact Or.inr h1
    · exact Or.inl (List.mem_singleton.mp h1)

theorem storeTags_mem (kf : String → DocKey) (text : String) :
    ∀ (tags : List String) (d : List (DocKey × String)) (e : DocKey × String),
      e ∈ storeTags kf text d tags → e ∈ d ∨ ∃ t ∈ tags, e = (kf t, text) := by
  intro tags
  induction tags with
  | nil => intro d e he; exact Or.inl he
  | cons t ts ih =>
    intro d e he
    rcases ih (dictInsert d (kf t) text) e he with h1 | ⟨t', ht', he2⟩
    · rcases dictInsert_mem d (kf t) text e h1 with h2 | h2
      · exact Or.inr ⟨t, List.mem_cons_self t ts, h2⟩
      · exact Or.inl h2
    · exact Or.inr ⟨t', List.mem_cons_of_mem t ht', he2⟩

theorem storeTags_count_one (kf : String → DocKey) (text : String) :
    ∀ (tags : List String) (d : List (DocKey × String)) (k : DocKey),
      keyCount d k = 1 → keyCount (storeTags kf text d tags) k = 1 := by
  intro tags
  induction tags with
  | nil => intro d k h; exact h
  | cons t ts ih =>
    intro d k h
    apply ih
    by_cases hk : kf t = k
    · subst hk
      rw [keyCount_insert_self, h]
      simp
    · rw [keyCount_insert_ne _ _ _ _ (fun hh => hk hh.symm)]
      exact h

theorem storeTags_count_mem (kf : String → DocKey) (text : String)
    (hinj : ∀ a b, kf a = kf b → a = b) :
    ∀ (tags : List String) (d : List (DocKey × String)) (t : String),
      t ∈ tags → keyCount d (kf t) ≤ 1 →
      keyCount (storeTags kf text d tags) (kf t) = 1 := by
  intro tags
  induction tags with
  | nil => intro d t ht; cases ht
  | cons t' ts ih =>
    intro d t ht hle
    by_cases heq : t = t'
    · subst heq
      show keyCount (storeTags kf text (dictInsert d (kf t) text) ts) (kf t) = 1
      apply storeTags_count_one
      rw [keyCount_insert_self]
      by_cases h0 : keyCount d (kf t) = 0
      · simp [h0]
      · have h1 : keyCount d (kf t) = 1 := by omega
        simp [h0, h1]
    · have ht' : t ∈ ts := by
        rcases List.mem_cons.mp ht with h | h
        · exact absurd h heq
        · exact h
      apply ih (dictInsert d (kf t') text) t ht'
      rw [keyCount_insert_ne]
      · exact hle
      · intro hk
        exact heq (hinj t t' hk)

/-- Claim C2: for every OpenAPI operation under a path with an HTTP
method in the recognized set that has non-empty tags and non-empty
summary, the extractor stores exactly one entry per tag, all entries
carrying identical text, and the text presents its sections in the
fixed order Description, Security, Parameters, Body, Responses,
omitting absent sections. -/
theorem extractor_one_entry_per_tag (method path : String) (op : Operation)
    (hm : httpMethods.contains method = true)
    (ht : op.tags.getD [] ≠ [])
    (hs : op.summary.getD "" ≠ "") :
    (processOperation ⟨[], []⟩ path (method, op)).warnings = [] ∧
    (∀ e ∈ (processOperation ⟨[], []⟩ path (method, op)).path_docs,
      ∃ t ∈ op.tags.getD [],
        e = ((t, method.toUpper, path, op.summary.getD ""),
             String.intercalate "\n" (operationDocs op))) ∧
    (∀ t ∈ op.tags.getD [],
      keyCount (processOperation ⟨[], []⟩ path (method, op)).path_docs
        ((t, method.toUpper, path, op.summary.getD "") : DocKey) = 1) ∧
    operationDocs op = descriptionLines op ++ securityLines op ++
      parametersLines op ++ bodyLines op ++ responsesLines op ∧
    (op.description = none → descriptionLines op = []) ∧
    (op.security = none → securityLines op = []) ∧
    (op.parameters = none → parametersLines op = []) ∧
    (op.requestBody = none → bodyLines op = []) ∧
    (op.responses = none → responsesLines op = []) := by
  have h1 : (op.tags.getD []).isEmpty = false := by
    cases h : (op.tags.getD []).isEmpty with
    | false => rfl
    | true => exact absurd (List.isEmpty_iff.mp h) ht
  have h2 : (op.summary.getD "" == "") = false := by
    rw [beq_eq_false_iff_ne]
    exact hs
  have hstep : processOperation ⟨[], []⟩ path (method, op) =
      ⟨storeTags (fun t => (t, method.toUpper, path, op.summary.getD ""))
        (String.intercalate "\n" (operationDocs op)) [] (op.tags.getD []), []⟩ := by
    simp only [processOperation, hm, h1, h2, Bool.false_or, Bool.or_false,
      if_true, if_false, Bool.false_eq_true, ite_false, ite_true]
  refine ⟨by rw [hstep], ?_, ?_, rfl, ?_, ?_, ?_, ?_, ?_⟩
  · intro e he
    rw [hstep] at he
    rcases storeTags_mem _ _ _ _ _ he with h | h
    · cases h
    · exact h
  · intro t ht'
    rw [hstep]
    apply storeTags_count_mem
    · intro a b hab
      have := congrArg (fun q : DocKey => q.1) hab
      exact this
    · exact ht'
    · show keyCount ([] : List (DocKey × String)) _ ≤ 1
      exact Nat.zero_le 1
  · intro h
    simp [descriptionLines, h]
  · intro h
    simp [securityLines, h]
  · intro h
    simp [parametersLines, h]
  · intro h
    simp [bodyLines, h]
  · intro h
    simp [responsesLines, h]

theorem extractor_one_entry_per_tag_witness :
    keyCount (processOperation ⟨[], []⟩ "/users"
        ("get", ⟨some ["Users"], some "Get User", none, none, none, none, none⟩)).path_docs
      (("Users", "get".toUpper, "/users", "Get User") : DocKey) = 1 :=
  (extractor_one_entry_per_tag "get" "/users"
    ⟨some ["Users"], some "Get User", none, none, none, none, none⟩
    (by decide) (by decide) (by decide)).2.2.1 "Users" (by decide)

/-- Claim C4: an operation whose tags list is empty or absent, or whose
summary is empty or absent, stores zero entries, emits exactly one
warning, and extraction of the remaining operations continues. -/
theorem extractor_missing_tags_warns (st : ExtractState) (method path : String)
    (op : Operation)
    (hm : httpMethods.contains method = true)
    (hbad : op.tags.getD [] = [] ∨ op.summary.getD "" = "") :
    processOperation st path (method, op) =
      { st with warnings := st.warnings ++ [missingMsg method path] } ∧
    (processOperation st path (method, op)).path_docs = st.path_docs ∧
    (processOperation st path (method, op)).warnings.length = st.warnings.length + 1 ∧
    (∀ rest : List (String × Operation),
      processPathItem st path ((method, op) :: rest) =
        processPathItem { st with warnings := st.warnings ++ [missingMsg method path] }
          path rest) := by
  have hcond : ((op.tags.getD []).isEmpty || (op.summary.getD "" == "")) = true := by
    rcases hbad with h | h
    · rw [List.isEmpty_iff.mpr h]
      rfl
    · rw [h]
      simp
  have hstep : processOperation st path (method, op) =
      { st with warnings := st.warnings ++ [missingMsg method path] } := by
    simp only [processOperation, hm, hcond, if_true, ite_true]
  refine ⟨hstep, by rw [hstep], by rw [hstep]; simp, ?_⟩
  intro rest
  show processPathItem (processOperation st path (method, op)) path rest = _
  rw [hstep]

theorem extractor_missing_tags_warns_witness :
    processOperation ⟨[], []⟩ "/x" ("get", ⟨some [], some "S", none, none, none, none, none⟩) =
      ⟨[], [missingMsg "get" "/x"]⟩ :=
  (extractor_missing_tags_warns ⟨[], []⟩ "get" "/x"
    ⟨some [], some "S", none, none, none, none, none⟩
    (by decide) (Or.inl (by decide))).1

/-- Claim C5: the Parameters section renders one bullet per parameter
in the documented format, with the required/optional choice tracking
the required field, an indented Example line exactly when the example
value is truthy, and a trailing blank line ending the block. -/
theorem parameters_section_format (op : Operation) (ps : List Param)
    (hp : op.parameters = some ps)
    (hwt : ∀ p ∈ ps, p.required = none ∨ ∃ b, p.required = some (.vbool b)) :
    parametersLines op = "Parameters:" :: (ps.flatMap paramLines ++ [""]) ∧
    (∀ p ∈ ps, paramLines p =
      if pyTruthy (p.exampleV.getD (.vstr "")) = true then
        ["  * " ++ p.name.getD "" ++ " (" ++ p.location.getD "" ++ ", " ++
           paramRequiredStr p ++ "): " ++ p.description.getD "",
         "\n    Example: " ++ pyStr (p.exampleV.getD (.vstr ""))]
      else
        ["  * " ++ p.name.getD "" ++ " (" ++ p.location.getD "" ++ ", " ++
           paramRequiredStr p ++ "): " ++ p.description.getD ""]) ∧
    (∀ p ∈ ps, (paramRequiredStr p = "required" ↔ p.required = some (.vbool true))) := by
  refine ⟨by rw [parametersLines, hp], ?_, ?_⟩
  · intro p _
    by_cases h : pyTruthy (p.exampleV.getD (.vstr "")) = true
    · simp [paramLines, paramBullet, h]
    · simp [paramLines, paramBullet, h]
  · intro p hmem
    rcases hwt p hmem with h | ⟨b, h⟩
    · have hopt : paramRequiredStr p = "optional" := by
        unfold paramRequiredStr
        rw [h]
        rfl
      rw [hopt, h]
      constructor
      · intro hc
        exact absurd hc (by decide)
      · intro hc
        cases hc
    · cases b with
      | true =>
        have hreq : paramRequiredStr p = "required" := by
          unfold paramRequiredStr
          rw [h]
          rfl
        rw [hreq, h]
        simp
      | false =>
        have hopt : paramRequiredStr p = "optional" := by
          unfold paramRequiredStr
          rw [h]
          rfl
        rw [hopt, h]
        constructor
        · intro hc
          exact absurd hc (by decide)
        · intro hc
          simp at hc

theorem parameters_section_format_witness :
    paramRequiredStr ⟨some "id", some "path", some (.vbool true), some "User ID", some (.vint 123)⟩ = "required" ↔
      (⟨some "id", some "path", some (.vbool true), some "User ID", some (.vint 123)⟩ : Param).required = some (.vbool true) :=
  (parameters_section_format
    ⟨none, none, none, none,
      some [⟨some "id", some "path", some (.vbool true), some "User ID", some (.vint 123)⟩],
      none, none⟩
    [⟨some "id", some "path", some (.vbool true), some "User ID", some (.vint 123)⟩]
    rfl
    (by
      intro q hq
      rw [List.mem_singleton] at hq
      subst hq
      exact Or.inr ⟨true, rfl⟩)).2.2
    ⟨some "id", some "path", some (.vbool true), some "User ID", some (.vint 123)⟩
    (by decide)

/-- Claim C9: a parameter whose example key is present but holds a
falsy value (0, False, the empty string, or None) gets no Example
line, exactly as if the key were absent; an Example line appears
exactly when the example value is truthy. -/
theorem falsy_example_no_line (p : Param) (v : PyVal) (hv : pyTruthy v = false) :
    paramLines { p with exampleV := some v } = paramLines { p with exampleV := none } ∧
    paramLines { p with exampleV := some v } = [paramBullet { p with exampleV := some v }] ∧
    (pyTruthy (.vint 0) = false ∧ pyTruthy (.vbool false) = false ∧
     pyTruthy (.vstr "") = false ∧ pyTruthy .vnone = false) ∧
    (∀ q : Param,
      paramLines q = [paramBullet q, "\n    Example: " ++ pyStr (q.exampleV.getD (.vstr ""))] ↔
        pyTruthy (q.exampleV.getD (.vstr "")) = true) := by
  have hv' : pyTruthy (Option.getD (some v) (.vstr "")) = false := by
    rw [Option.getD_some]
    exact hv
  have hnone : pyTruthy (Option.getD (none : Option PyVal) (.vstr "")) = false := by
    rfl
  refine ⟨?_, ?_, ⟨rfl, rfl, by decide, rfl⟩, ?_⟩
  · show paramLines { p with exampleV := some v } = paramLines { p with exampleV := none }
    simp only [paramLines, hv', hnone, Bool.false_eq_true, if_false, ite_false]
    rfl
  · simp only [paramLines, hv', Bool.false_eq_true, if_false, ite_false]
  · intro q
    constructor
    · intro h
      cases htr : pyTruthy (q.exampleV.getD (.vstr "")) with
      | true => rfl
      | false =>
        simp only [paramLines, htr, Bool.false_eq_true, if_false, ite_false] at h
        simp at h
    · intro h
      simp [paramLines, h]

theorem falsy_example_no_line_witness :
    paramLines ⟨some "id", some "query", none, some "d", some (.vint 0)⟩ =
      paramLines ⟨some "id", some "query", none, some "d", none⟩ :=
  (falsy_example_no_line ⟨some "id", some "query", none, some "d", none⟩
    (.vint 0) (by decide)).1

/-- Claim C8: the loader fails and returns no document when the file is
invalid YAML, when the top-level openapi field is absent or does not
start with 3.0, or when the file is unreadable, with the three failure
kinds reported distinctly; otherwise it returns the parsed root
document object. -/
theorem validate_openapi_failure_kinds :
    (∀ e, validate_openapi_file (.yamlError e) = .parseError e) ∧
    (∀ e, validate_openapi_file (.ioError e) = .readError e) ∧
    (∀ entries, lookupKey "openapi" entries = none →
      validate_openapi_file (.parsed (.mapping entries)) = .formatError) ∧
    (∀ entries s, lookupKey "openapi" entries = some (.vstr s) →
      pyStartsWith s "3.0" = false →
      validate_openapi_file (.parsed (.mapping entries)) = .formatError) ∧
    (∀ entries s, lookupKey "openapi" entries = some (.vstr s) →
      pyStartsWith s "3.0" = true →
      validate_openapi_file (.parsed (.mapping entries)) = .success (.mapping entries)) ∧
    (∀ e e', (LoadResult.parseError e ≠ .formatError) ∧
      (LoadResult.parseError e ≠ .readError e') ∧
      ((LoadResult.formatError : LoadResult) ≠ .readError e')) ∧
    (∀ r d, validate_openapi_file r = .success d → r = .parsed d) := by
  refine ⟨fun e => rfl, fun e => rfl, ?_, ?_, ?_, ?_, ?_⟩
  · intro entries h
    simp only [validate_openapi_file, h, Option.getD_none]
    rfl
  · intro entries s h hsw
    simp only [validate_openapi_file, h, Option.getD_some, hsw, Bool.false_eq_true,
      if_false, ite_false]
  · intro entries s h hsw
    simp only [validate_openapi_file, h, Option.getD_some, hsw, if_true, ite_true]
  · intro e e'
    refine ⟨?_, ?_, ?_⟩ <;> intro h <;> cases h
  · intro r d h
    cases r with
    | ioError e => cases h
    | yamlError e => cases h
    | parsed doc =>
      cases doc with
      | nonMapping => cases h
      | mapping entries =>
        simp only [validate_openapi_file] at h
        split at h
        · split at h
          · cases h
            rfl
          · cases h
        · cases h

theorem validate_openapi_failure_kinds_witness :
    validate_openapi_file (.parsed (.mapping [("openapi", .vstr "2.0.0")])) = .formatError ∧
    validate_openapi_file (.parsed (.mapping [("openapi", .vstr "3.0.3")])) =
      .success (.mapping [("openapi", .vstr "3.0.3")]) :=
  ⟨validate_openapi_failure_kinds.2.2.2.1 [("openapi", .vstr "2.0.0")] "2.0.0"
      (by decide) (by decide),
   validate_openapi_failure_kinds.2.2.2.2.1 [("openapi", .vstr "3.0.3")] "3.0.3"
      (by decide) (by decide)⟩

theorem pyReplaceFuel_high (pat rep : List Char) :
    ∀ (n : Nat) (s : List Char), s.length ≤ n →
      pyReplaceFuel pat rep n s = pyReplaceFuel pat rep s.length s := by
  intro n
  induction n using Nat.strong_induction_on with
  | _ n ih =>
    intro s hs
    cases n with
    | zero =>
      have hnil : s = [] := List.length_eq_zero.mp (Nat.le_zero.mp hs)
      subst hnil
      rfl
    | succ m =>
      cases s with
      | nil => rfl
      | cons c cs =>
        have hcs : cs.length ≤ m := by
          rw [List.length_cons] at hs
          omega
        simp only [List.length_cons, pyReplaceFuel]
        by_cases hc : pat ≠ [] ∧ (c :: cs).take pat.length = pat
        · rw [if_pos hc, if_pos hc]
          have hx : (cs.drop (pat.length - 1)).length ≤ cs.length := by
            rw [List.length_drop]
            omega
          rw [ih m (Nat.lt_succ_self m) _ (le_trans hx hcs),
              ih cs.length (Nat.lt_succ_of_le hcs) _ hx]
        · rw [if_neg hc, if_neg hc]
          rw [ih m (Nat.lt_succ_self m) cs hcs]

theorem pyReplace_nil (pat rep : List Char) : pyReplace pat rep [] = [] := rfl

theorem pyReplace_cons_match (pat rep : List Char) (c : Char) (cs : List Char)
    (hp : pat ≠ []) (hm : (c :: cs).take pat.length = pat) :
    pyReplace pat rep (c :: cs) =
      rep ++ pyReplace pat rep ((c :: cs).drop pat.length) := by
  unfold pyReplace
  simp only [List.length_cons, pyReplaceFuel]
  rw [if_pos ⟨hp, hm⟩]
  have hdrop : (c :: cs).drop pat.length = cs.drop (pat.length - 1) := by
    cases hpat : pat with
    | nil => exact absurd hpat hp
    | cons a as =>
      rw [List.length_cons, List.drop_succ_cons, Nat.succ_sub_one]
  rw [hdrop]
  exact congrArg (rep ++ ·)
    (pyReplaceFuel_high pat rep cs.length _ (by rw [List.length_drop]; omega))

theorem pyReplace_cons_nomatch (pat rep : List Char) (c : Char) (cs : List Char)
    (h : ¬(pat ≠ [] ∧ (c :: cs).take pat.length = pat)) :
    pyReplace pat rep (c :: cs) = c :: pyReplace pat rep cs := by
  unfold pyReplace
  simp only [List.length_cons, pyReplaceFuel]
  rw [if_neg h]

theorem pyReplace_skip (pt rep b : List Char) (d : Char) :
    ∀ (a : List Char), (∀ c ∈ a, c ≠ d) →
      pyReplace (d :: pt) rep (a ++ b) = a ++ pyReplace (d :: pt) rep b := by
  intro a
  induction a with
  | nil => intro _; rfl
  | cons x xs ih =>
    intro ha
    have hx : x ≠ d := ha x (List.mem_cons_self x xs)
    have hno : ¬((d :: pt) ≠ [] ∧ (x :: (xs ++ b)).take (d :: pt).length = d :: pt) := by
      intro hcon
      have h2 := hcon.2
      rw [List.length_cons, List.take_succ_cons] at h2
      injection h2 with h3 _
      exact hx h3
    rw [List.cons_append, pyReplace_cons_nomatch _ _ _ _ hno,
        ih (fun c hc => ha c (List.mem_cons_of_mem x hc)), List.cons_append]

theorem pyReplace_at_start (pat rep b : List Char) (hp : pat ≠ []) :
    pyReplace pat rep (pat ++ b) = rep ++ pyReplace pat rep b := by
  cases hpat : pat with
  | nil => exact absurd hpat hp
  | cons a as =>
    subst hpat
    rw [List.cons_append, pyReplace_cons_match]
    · exact congrArg (rep ++ ·)
        (congrArg (pyReplace (a :: as) rep)
          (show ((a :: as) ++ b).drop (a :: as).length = b from List.drop_left (a :: as) b))
    · exact hp
    · exact List.take_left (a :: as) b

theorem endsWithL_iff (suf s : List Char) :
    endsWithL suf s = true ↔ ∃ u, s = u ++ suf := by
  unfold endsWithL
  rw [decide_eq_true_eq]
  constructor
  · intro h
    refine ⟨s.take (s.length - suf.length), ?_⟩
    conv_lhs => rw [← List.take_append_drop (s.length - suf.length) s]
    rw [h]
  · rintro ⟨u, rfl⟩
    rw [List.length_append]
    have hlen : u.length + suf.length - suf.length = u.length := by omega
    rw [hlen, List.drop_left]

theorem pyReplace_bak_suffix :
    ∀ (n : Nat) (s : List Char), s.length ≤ n → (∃ u, s = u ++ bakL) →
      ∃ w, pyReplace bakL bruL s = w ++ bruL := by
  intro n
  induction n using Nat.strong_induction_on with
  | _ n ih =>
    rintro s hs ⟨u, hu⟩
    cases s with
    | nil =>
      exfalso
      have hlen := congrArg List.length hu
      simp [bakL] at hlen
    | cons c cs =>
      by_cases hm : (c :: cs).take bakL.length = bakL
      · rw [pyReplace_cons_match _ _ _ _ (by simp [bakL]) hm]
        have hsplit : c :: cs = bakL ++ (c :: cs).drop bakL.length := by
          conv_lhs => rw [← List.take_append_drop bakL.length (c :: cs)]
          rw [hm]
        have heq : bakL ++ (c :: cs).drop bakL.length = u ++ bakL :=
          hsplit.symm.trans hu
        by_cases ht : (c :: cs).drop bakL.length = []
        · rw [ht, pyReplace_nil]
          exact ⟨[], by simp⟩
        · have hsuffix : ∃ v, (c :: cs).drop bakL.length = v ++ bakL := by
            rcases u with _ | ⟨a1, _ | ⟨a2, _ | ⟨a3, _ | ⟨a4, u4⟩⟩⟩⟩
            · exfalso
              have h0 : bakL ++ (c :: cs).drop bakL.length = bakL ++ [] := by
                simpa using heq
              exact ht (List.append_cancel_left h0)
            · exfalso
              simp [bakL] at heq
            · exfalso
              simp [bakL] at heq
            · exfalso
              simp [bakL] at heq
            · simp only [bakL, List.cons_append, List.nil_append,
                List.cons.injEq] at heq
              exact ⟨u4, heq.2.2.2.2⟩
          have hlt : ((c :: cs).drop bakL.length).length < n := by
            rw [List.length_drop]
            have h1 : 1 ≤ (c :: cs).length := by simp
            have h2 : (c :: cs).length ≤ n := hs
            have h3 : (0 : Nat) < bakL.length := by simp [bakL]
            omega
          obtain ⟨w, hw⟩ :=
            ih ((c :: cs).drop bakL.length).length hlt _ (le_refl _) hsuffix
          rw [hw]
          exact ⟨bruL ++ w, by rw [List.append_assoc]⟩
      · rcases u with _ | ⟨a, u'⟩
        · exfalso
          apply hm
          rw [List.nil_append] at hu
          rw [hu]
          simp [bakL]
        · have hcs' : cs = u' ++ bakL := by
            simp only [List.cons_append, List.cons.injEq] at hu
            exact hu.2
          rw [pyReplace_cons_nomatch _ _ _ _ (fun hcon => hm hcon.2)]
          have hlt : cs.length < n := by
            rw [List.length_cons] at hs
            omega
          obtain ⟨w, hw⟩ := ih cs.length hlt cs (le_refl _) ⟨u', hcs'⟩
          rw [hw]
          exact ⟨c :: w, by rw [List.cons_append]⟩

theorem bakToBru_suffix (s : List Char) (h : ∃ u, s = u ++ bakL) :
    ∃ w, bakToBru s = w ++ bruL :=
  pyReplace_bak_suffix s.length s (le_refl _) h

theorem isBakName_bakToBru (n : List Char) (h : isBakName n = true) :
    isBakName (bakToBru n) = false := by
  obtain ⟨w, hw⟩ := bakToBru_suffix n ((endsWithL_iff bakL n).mp h)
  unfold isBakName
  cases hb : endsWithL bakL (bakToBru n) with
  | false => rfl
  | true =>
    exfalso
    obtain ⟨v, hv⟩ := (endsWithL_iff bakL (bakToBru n)).mp hb
    rw [hw] at hv
    have hlen : bruL.length = bakL.length := rfl
    have := (List.append_inj' hv hlen).2
    simp [bruL, bakL] at this

theorem pyReplace_self (pat rep : List Char) (hp : pat ≠ []) :
    pyReplace pat rep pat = rep := by
  have h := pyReplace_at_start pat rep [] hp
  rw [List.append_nil] at h
  rw [h, pyReplace_nil, List.append_nil]

/-- Claim C10: the backup path replaces every occurrence of the
working extension anywhere in the path (not only the final extension),
revert derives the working name by replacing every occurrence of the
backup extension, and consequently a path containing the working
extension mid-path gets a backup other than a simple extension swap. -/
theorem backup_path_replaces_every_occurrence (a b : List Char)
    (ha : ∀ c ∈ a, c ≠ '.') (hb : ∀ c ∈ b, c ≠ '.') :
    backupPath (a ++ bruL ++ b ++ bruL) = a ++ bakL ++ b ++ bakL ∧
    bakToBru (a ++ bakL ++ b ++ bakL) = a ++ bruL ++ b ++ bruL ∧
    a ++ bakL ++ b ++ bakL ≠ a ++ bruL ++ b ++ bakL := by
  refine ⟨?_, ?_, ?_⟩
  · show pyReplace bruL bakL (a ++ bruL ++ b ++ bruL) = a ++ bakL ++ b ++ bakL
    simp only [List.append_assoc]
    rw [show bruL = '.' :: ['b', 'r', 'u'] from rfl]
    rw [pyReplace_skip _ _ _ _ a ha]
    rw [pyReplace_at_start _ _ _ (by simp)]
    rw [pyReplace_skip _ _ _ _ b hb]
    rw [pyReplace_self _ _ (by simp)]
  · show pyReplace bakL bruL (a ++ bakL ++ b ++ bakL) = a ++ bruL ++ b ++ bruL
    simp only [List.append_assoc]
    rw [show bakL = '.' :: ['b', 'a', 'k'] from rfl]
    rw [pyReplace_skip _ _ _ _ a ha]
    rw [pyReplace_at_start _ _ _ (by simp)]
    rw [pyReplace_skip _ _ _ _ b hb]
    rw [pyReplace_self _ _ (by simp)]
  · intro heq
    simp only [List.append_assoc] at heq
    have h2 := List.append_cancel_left heq
    simp [bakL, bruL] at h2

theorem backup_path_replaces_every_occurrence_witness :
    backupPath (['a', 'p', 'i'] ++ bruL ++ ['/', 'g', 'e', 't'] ++ bruL) =
      ['a', 'p', 'i'] ++ bakL ++ ['/', 'g', 'e', 't'] ++ bakL :=
  (backup_path_replaces_every_occurrence ['a', 'p', 'i'] ['/', 'g', 'e', 't']
    (by decide) (by decide)).1

theorem matchBlockAt_some (kw s m : List Char) (h : matchBlockAt kw s = some m) :
    ∃ wsp inner rest,
      (∀ c ∈ wsp, isPySpace c = true) ∧
      (∀ c ∈ inner, c ≠ '{' ∧ c ≠ '}') ∧
      m = kw ++ wsp ++ '{' :: (inner ++ ['}']) ∧
      s = m ++ rest := by
  unfold matchBlockAt at h
  by_cases h1 : s.take kw.length = kw
  · rw [if_pos h1] at h
    split at h
    · rename_i r3 hdw
      split at h
      · rename_i rest2 hdw2
        injection h with hm
        refine ⟨(s.drop kw.length).takeWhile isPySpace,
          r3.takeWhile (fun ch => !(ch == '{') && !(ch == '}')), rest2,
          fun c hc => List.mem_takeWhile_imp hc,
          fun c hc => ?_, hm.symm, ?_⟩
        · have hb := List.mem_takeWhile_imp hc
          simp only [Bool.and_eq_true, Bool.not_eq_true', beq_eq_false_iff_ne] at hb
          exact hb
        have hsplit1 : s = s.take kw.length ++ s.drop kw.length :=
          (List.take_append_drop kw.length s).symm
        have hsplit2 : s.drop kw.length =
            (s.drop kw.length).takeWhile isPySpace ++ '{' :: r3 := by
          conv_lhs => rw [← List.takeWhile_append_dropWhile isPySpace (s.drop kw.length)]
          rw [hdw]
        have hsplit3 : r3 =
            r3.takeWhile (fun ch => !(ch == '{') && !(ch == '}')) ++ '}' :: rest2 := by
          conv_lhs => rw [← List.takeWhile_append_dropWhile
            (fun ch => !(ch == '{') && !(ch == '}')) r3]
          rw [hdw2]
        rw [← hm]
        conv_lhs => rw [hsplit1, h1, hsplit2, hsplit3]
        simp [List.append_assoc]
      · cases h
    · cases h
  · rw [if_neg h1] at h
    cases h

theorem searchBlock_some (kw : List Char) :
    ∀ (s : List Char) (i : Nat) (m : List Char), searchBlock kw s = some (i, m) →
      (∃ wsp inner,
        (∀ c ∈ wsp, isPySpace c = true) ∧
        (∀ c ∈ inner, c ≠ '{' ∧ c ≠ '}') ∧
        m = kw ++ wsp ++ '{' :: (inner ++ ['}'])) ∧
      s.drop i = m ++ s.drop (i + m.length) := by
  intro s
  induction s with
  | nil => intro i m h; cases h
  | cons c cs ih =>
    intro i m h
    unfold searchBlock at h
    cases hm : matchBlockAt kw (c :: cs) with
    | some m0 =>
      rw [hm] at h
      injection h with h1
      injection h1 with hi hm2
      subst hi
      subst hm2
      obtain ⟨wsp, inner, rest, hws, hin, hm0, hs⟩ :=
        matchBlockAt_some kw (c :: cs) m0 hm
      refine ⟨⟨wsp, inner, hws, hin, hm0⟩, ?_⟩
      rw [List.drop_zero, Nat.zero_add]
      conv_lhs => rw [hs]
      conv_rhs => rw [hs]
      rw [List.drop_left]
    | none =>
      rw [hm] at h
      cases hrec : searchBlock kw cs with
      | none => rw [hrec] at h; cases h
      | some im =>
        rw [hrec] at h
        simp only [Option.map_some'] at h
        injection h with h1
        injection h1 with hi hm2
        subst hi
        subst hm2
        obtain ⟨hdec, hpos⟩ := ih im.1 im.2 hrec
        refine ⟨hdec, ?_⟩
        rw [List.drop_succ_cons]
        have harith : im.1 + 1 + im.2.length = im.1 + im.2.length + 1 := by omega
        rw [harith, List.drop_succ_cons]
        exact hpos

theorem dropWhile_append_cons (p : Char → Bool) (c : Char) (hc : p c = false) :
    ∀ (a b : List Char), (a ++ c :: b).dropWhile p = a.dropWhile p ++ c :: b := by
  intro a
  induction a with
  | nil =>
    intro b
    simp [List.dropWhile_cons, hc]
  | cons x xs ih =>
    intro b
    rw [List.cons_append, List.dropWhile_cons, List.dropWhile_cons]
    by_cases hx : p x = true
    · rw [if_pos hx, if_pos hx]
      exact ih b
    · rw [if_neg hx, if_neg hx, List.cons_append]

theorem pyRStripL_append_cons (c : Char) (hc : isPySpace c = false) (u v : List Char) :
    pyRStripL (u ++ c :: v) = u ++ c :: pyRStripL v := by
  unfold pyRStripL
  rw [List.reverse_append, List.reverse_cons, List.append_assoc,
    List.singleton_append, dropWhile_append_cons isPySpace c hc,
    List.reverse_append, List.reverse_cons, List.reverse_reverse,
    List.append_assoc, List.singleton_append]

theorem pyStripL_docs (t : List Char) :
    pyStripL ('d' :: t) = pyRStripL ('d' :: t) := by
  unfold pyStripL
  rw [List.dropWhile_cons, if_neg (by decide)]

/-- Claim C3: when the content has no docs block, the new docs element
is inserted immediately after the end of the meta block, separated by
a blank line, with all content outside the insertion point
byte-identical; without a meta block it is prepended to the start. -/
theorem docs_insert_position (B bru : List Char)
    (hnd : searchBlock docsKw bru = none) :
    (∀ i span, searchBlock metaKw bru = some (i, span) →
      update_bru_content B bru =
        bru.take (i + span.length) ++ nl2L ++ newDocsElem B ++
          bru.drop (i + span.length) ∧
      bru.drop i = span ++ bru.drop (i + span.length) ∧
      bru.take (i + span.length) ++ bru.drop (i + span.length) = bru) ∧
    (searchBlock metaKw bru = none →
      update_bru_content B bru = newDocsElem B ++ nl2L ++ bru) := by
  constructor
  · intro i span hsm
    refine ⟨?_, ?_, List.take_append_drop _ _⟩
    · unfold update_bru_content
      rw [hnd, hsm]
    · exact (searchBlock_some metaKw bru i span hsm).2
  · intro hsm
    unfold update_bru_content
    rw [hnd, hsm]

theorem docs_insert_position_witness :
    update_bru_content ['D'] ['m', 'e', 't', 'a', ' ', '{', '\n', '}', ' ', 'g'] =
      (['m', 'e', 't', 'a', ' ', '{', '\n', '}', ' ', 'g'] : List Char).take
          (0 + (['m', 'e', 't', 'a', ' ', '{', '\n', '}'] : List Char).length) ++
        nl2L ++ newDocsElem ['D'] ++
        (['m', 'e', 't', 'a', ' ', '{', '\n', '}', ' ', 'g'] : List Char).drop
          (0 + (['m', 'e', 't', 'a', ' ', '{', '\n', '}'] : List Char).length) :=
  (((docs_insert_position ['D'] ['m', 'e', 't', 'a', ' ', '{', '\n', '}', ' ', 'g']
      (by decide)).1) 0 ['m', 'e', 't', 'a', ' ', '{', '\n', '}'] (by decide)).1

/-- Claim C1, corrected: merging into an existing docs block produces
the merged span whose block content is the right-stripped old content
followed by a blank line, the new text and a newline; but the merged
span replaces every occurrence of the matched span text in the file
content (Python str.replace), not only the first occurrence. -/
theorem docs_merge_replaces_every_occurrence (B bru : List Char) (i : Nat)
    (span : List Char) (h : searchBlock docsKw bru = some (i, span)) :
    ∃ wsp inner,
      (∀ c ∈ wsp, isPySpace c = true) ∧
      (∀ c ∈ inner, c ≠ '{' ∧ c ≠ '}') ∧
      span = docsKw ++ wsp ++ '{' :: (inner ++ ['}']) ∧
      bru.drop i = span ++ bru.drop (i + span.length) ∧
      update_bru_content B bru =
        pyReplace span
          (docsKw ++ wsp ++ '{' :: (pyRStripL inner ++ nl2L ++ B ++ '\n' :: ['}']))
          bru := by
  obtain ⟨⟨wsp, inner, hws, hin, hspan⟩, hpos⟩ := searchBlock_some docsKw bru i span h
  refine ⟨wsp, inner, hws, hin, hspan, hpos, ?_⟩
  have hdl : span.dropLast = docsKw ++ wsp ++ '{' :: inner := by
    rw [hspan]
    have hshape : docsKw ++ wsp ++ '{' :: (inner ++ ['}']) =
        (docsKw ++ wsp ++ '{' :: inner) ++ ['}'] := by
      simp [List.append_assoc]
    rw [hshape, List.dropLast_concat]
  have hstrip : pyStripL span.dropLast = docsKw ++ wsp ++ '{' :: pyRStripL inner := by
    rw [hdl]
    have hhead : docsKw ++ wsp ++ '{' :: inner =
        'd' :: (['o', 'c', 's'] ++ wsp ++ '{' :: inner) := by
      simp [docsKw]
    rw [hhead, pyStripL_docs]
    have hform : 'd' :: (['o', 'c', 's'] ++ wsp ++ '{' :: inner) =
        ('d' :: (['o', 'c', 's'] ++ wsp)) ++ '{' :: inner := by
      simp [List.append_assoc]
    rw [hform, pyRStripL_append_cons '{' (by decide)]
    simp [docsKw, List.append_assoc]
  have hmerged : pyStripL span.dropLast ++ nl2L ++ B ++ '\n' :: ['}'] =
      docsKw ++ wsp ++ '{' :: (pyRStripL inner ++ nl2L ++ B ++ '\n' :: ['}']) := by
    rw [hstrip]
    simp [List.append_assoc]
  unfold update_bru_content
  rw [h]
  show pyReplace span (pyStripL span.dropLast ++ nl2L ++ B ++ '\n' :: ['}']) bru = _
  rw [hmerged]

theorem docs_merge_replaces_every_occurrence_witness :
    (['d', 'o', 'c', 's', ' ', '{', 'h', ' ', '}', '\n', 'x'] : List Char).drop 0 =
      ['d', 'o', 'c', 's', ' ', '{', 'h', ' ', '}'] ++
        (['d', 'o', 'c', 's', ' ', '{', 'h', ' ', '}', '\n', 'x'] : List Char).drop
          (0 + (['d', 'o', 'c', 's', ' ', '{', 'h', ' ', '}'] : List Char).length) := by
  obtain ⟨wsp, inner, hws, hin, hspan, hpos, hupd⟩ :=
    docs_merge_replaces_every_occurrence ['B']
      ['d', 'o', 'c', 's', ' ', '{', 'h', ' ', '}', '\n', 'x'] 0
      ['d', 'o', 'c', 's', ' ', '{', 'h', ' ', '}'] (by decide)
  exact hpos

theorem docs_merge_duplicate_spans_counterexample :
    update_bru_content ['B']
        ['d', 'o', 'c', 's', ' ', '{', 'a', '}', '\n', 'x', '\n',
         'd', 'o', 'c', 's', ' ', '{', 'a', '}'] =
      ['d', 'o', 'c', 's', ' ', '{', 'a', '\n', '\n', 'B', '\n', '}', '\n', 'x', '\n',
       'd', 'o', 'c', 's', ' ', '{', 'a', '\n', '\n', 'B', '\n', '}'] ∧
    (['d', 'o', 'c', 's', ' ', '{', 'a', '\n', '\n', 'B', '\n', '}', '\n', 'x', '\n',
      'd', 'o', 'c', 's', ' ', '{', 'a', '\n', '\n', 'B', '\n', '}'] : List Char) ≠
      ['d', 'o', 'c', 's', ' ', '{', 'a', '\n', '\n', 'B', '\n', '}', '\n', 'x', '\n',
       'd', 'o', 'c', 's', ' ', '{', 'a', '}'] := by
  decide

theorem applyWrite_dir (w : String × List Char × List Char) (f : BrunoFile) :
    (applyWrite w f).dir = f.dir := by
  unfold applyWrite
  split <;> rfl

theorem applyWrite_name (w : String × List Char × List Char) (f : BrunoFile) :
    (applyWrite w f).name = f.name := by
  unfold applyWrite
  split <;> rfl

theorem applyWrite_content_override (w : String × List Char × List Char)
    (f : BrunoFile) (c : List Char) :
    { applyWrite w f with content := c } = { f with content := c } := by
  unfold applyWrite
  split <;> rfl

theorem map_fileKey_setContent (ws : List BrunoFile) (d : String) (n c : List Char) :
    (setContent ws d n c).map fileKey = ws.map fileKey := by
  unfold setContent
  rw [List.map_map]
  apply List.map_congr_left
  intro f _
  show fileKey (applyWrite (d, n, c) f) = fileKey f
  unfold fileKey
  rw [applyWrite_dir, applyWrite_name]

theorem existsFile_eq_keys (ws : List BrunoFile) (d : String) (n : List Char) :
    existsFile ws d n = (ws.map fileKey).any (fun k => decide (k.1 = d ∧ k.2 = n)) := by
  induction ws with
  | nil => rfl
  | cons f fs ih =>
    show (decide (f.dir = d ∧ f.name = n) || existsFile fs d n) = _
    rw [List.map_cons, List.any_cons, ih]
    rfl

theorem existsFile_congr (ws ws' : List BrunoFile)
    (h : ws.map fileKey = ws'.map fileKey) (d : String) (n : List Char) :
    existsFile ws d n = existsFile ws' d n := by
  rw [existsFile_eq_keys, existsFile_eq_keys, h]

theorem findFile_setContent_ne (ws : List BrunoFile) (d0 : String) (n0 c : List Char)
    (d : String) (n : List Char) (hne : n ≠ n0) :
    findFile (setContent ws d0 n0 c) d n = findFile ws d n := by
  unfold findFile setContent
  induction ws with
  | nil => rfl
  | cons f fs ih =>
    rw [List.map_cons]
    by_cases hp : f.dir = d ∧ f.name = n
    · have hpred : decide ((applyWrite (d0, n0, c) f).dir = d ∧
          (applyWrite (d0, n0, c) f).name = n) = true := by
        rw [applyWrite_dir, applyWrite_name]
        exact decide_eq_true hp
      rw [@List.find?_cons_of_pos _ (fun g => decide (g.dir = d ∧ g.name = n))
            (applyWrite (d0, n0, c) f) (List.map (applyWrite (d0, n0, c)) fs) hpred,
          @List.find?_cons_of_pos _ (fun g => decide (g.dir = d ∧ g.name = n))
            f fs (decide_eq_true hp)]
      have hid : applyWrite (d0, n0, c) f = f := by
        unfold applyWrite
        rw [if_neg]
        intro hcon
        apply hne
        rw [← hp.2, hcon.2]
      rw [hid]
    · have hpred : ¬(decide ((applyWrite (d0, n0, c) f).dir = d ∧
          (applyWrite (d0, n0, c) f).name = n) = true) := by
        rw [applyWrite_dir, applyWrite_name, decide_eq_true_eq]
        exact hp
      have hpred2 : ¬(decide (f.dir = d ∧ f.name = n) = true) := by
        rw [decide_eq_true_eq]
        exact hp
      rw [@List.find?_cons_of_neg _ (fun g => decide (g.dir = d ∧ g.name = n))
            (applyWrite (d0, n0, c) f) (List.map (applyWrite (d0, n0, c)) fs) hpred,
          @List.find?_cons_of_neg _ (fun g => decide (g.dir = d ∧ g.name = n))
            f fs hpred2]
      exact ih

theorem findFile_self (ws : List BrunoFile) (hnd : (ws.map fileKey).Nodup)
    (b : BrunoFile) (hb : b ∈ ws) : findFile ws b.dir b.name = some b := by
  unfold findFile
  induction ws with
  | nil => cases hb
  | cons f fs ih =>
    rw [List.map_cons, List.nodup_cons] at hnd
    by_cases hp : f.dir = b.dir ∧ f.name = b.name
    · rw [@List.find?_cons_of_pos _ (fun g => decide (g.dir = b.dir ∧ g.name = b.name))
          f fs (decide_eq_true hp)]
      rcases List.mem_cons.mp hb with h | h
      · rw [h]
      · exfalso
        apply hnd.1
        have hkey : fileKey f = fileKey b := by
          unfold fileKey
          rw [hp.1, hp.2]
        rw [hkey]
        exact List.mem_map_of_mem fileKey h
    · have hpred : ¬(decide (f.dir = b.dir ∧ f.name = b.name) = true) := by
        rw [decide_eq_true_eq]
        exact hp
      rw [@List.find?_cons_of_neg _ (fun g => decide (g.dir = b.dir ∧ g.name = b.name))
          f fs hpred]
      rcases List.mem_cons.mp hb with h | h
      · exfalso
        apply hp
        subst h
        exact ⟨rfl, rfl⟩
      · exact ih hnd.2 h

theorem filter_isBak_setContent (ws : List BrunoFile) (d0 : String) (n0 c : List Char)
    (h : isBakName n0 = false) :
    (setContent ws d0 n0 c).filter (fun f => isBakName f.name) =
      ws.filter (fun f => isBakName f.name) := by
  unfold setContent
  induction ws with
  | nil => rfl
  | cons f fs ih =>
    rw [List.map_cons, List.filter_cons, List.filter_cons]
    by_cases hw : f.dir = d0 ∧ f.name = n0
    · have h1 : isBakName (applyWrite (d0, n0, c) f).name = false := by
        rw [applyWrite_name, hw.2]
        exact h
      have h2 : isBakName f.name = false := by
        rw [hw.2]
        exact h
      simp only [h1, h2, Bool.false_eq_true, if_false, ite_false]
      exact ih
    · have hid : applyWrite (d0, n0, c) f = f := by
        unfold applyWrite
        rw [if_neg hw]
      rw [hid]
      cases hfb : isBakName f.name with
      | true =>
        simp only [hfb, if_true, ite_true]
        rw [ih]
      | false =>
        simp only [hfb, Bool.false_eq_true, if_false, ite_false]
        exact ih

theorem map_fileKey_applyWrites (L : List (String × List Char × List Char)) :
    ∀ ws : List BrunoFile, (applyWrites ws L).map fileKey = ws.map fileKey := by
  induction L with
  | nil => intro ws; rfl
  | cons w L ih =>
    intro ws
    show (applyWrites (ws.map (applyWrite w)) L).map fileKey = _
    rw [ih]
    show (setContent ws w.1 w.2.1 w.2.2).map fileKey = ws.map fileKey
    exact map_fileKey_setContent ws w.1 w.2.1 w.2.2

theorem filter_isBak_applyWrites :
    ∀ (L : List (String × List Char × List Char)) (ws : List BrunoFile),
      (∀ w ∈ L, isBakName w.2.1 = false) →
      (applyWrites ws L).filter (fun f => isBakName f.name) =
        ws.filter (fun f => isBakName f.name) := by
  intro L
  induction L with
  | nil => intro ws _; rfl
  | cons w L ih =>
    intro ws hL
    show (applyWrites (ws.map (applyWrite w)) L).filter _ = _
    rw [ih _ (fun w' hw' => hL w' (List.mem_cons_of_mem w hw'))]
    show (setContent ws w.1 w.2.1 w.2.2).filter _ = _
    exact filter_isBak_setContent ws w.1 w.2.1 w.2.2 (hL w (List.mem_cons_self w L))

theorem findFile_applyWrites_ne :
    ∀ (L : List (String × List Char × List Char)) (ws : List BrunoFile)
      (d : String) (n : List Char), (∀ w ∈ L, n ≠ w.2.1) →
      findFile (applyWrites ws L) d n = findFile ws d n := by
  intro L
  induction L with
  | nil => intro ws d n _; rfl
  | cons w L ih =>
    intro ws d n hL
    show findFile (applyWrites (ws.map (applyWrite w)) L) d n = _
    rw [ih _ d n (fun w' hw' => hL w' (List.mem_cons_of_mem w hw'))]
    show findFile (setContent ws w.1 w.2.1 w.2.2) d n = _
    exact findFile_setContent_ne ws w.1 w.2.1 w.2.2 d n (hL w (List.mem_cons_self w L))

theorem overwriteBy_eq_some (L : List (String × List Char × List Char))
    (f : BrunoFile) (w0 : String × List Char × List Char)
    (h : L.reverse.find? (fun w' => decide (f.dir = w'.1 ∧ f.name = w'.2.1)) = some w0) :
    overwriteBy L f = { f with content := w0.2.2 } := by
  unfold overwriteBy
  rw [h]

theorem overwriteBy_eq_none (L : List (String × List Char × List Char))
    (f : BrunoFile)
    (h : L.reverse.find? (fun w' => decide (f.dir = w'.1 ∧ f.name = w'.2.1)) = none) :
    overwriteBy L f = f := by
  unfold overwriteBy
  rw [h]

theorem overwriteBy_dir (L : List (String × List Char × List Char)) (f : BrunoFile) :
    (overwriteBy L f).dir = f.dir := by
  unfold overwriteBy
  split <;> rfl

theorem overwriteBy_name (L : List (String × List Char × List Char)) (f : BrunoFile) :
    (overwriteBy L f).name = f.name := by
  unfold overwriteBy
  split <;> rfl

theorem overwriteBy_cons (w : String × List Char × List Char)
    (L : List (String × List Char × List Char)) (f : BrunoFile) :
    overwriteBy L (applyWrite w f) = overwriteBy (w :: L) f := by
  have hfun : (fun w' : String × List Char × List Char =>
      decide ((applyWrite w f).dir = w'.1 ∧ (applyWrite w f).name = w'.2.1)) =
      (fun w' => decide (f.dir = w'.1 ∧ f.name = w'.2.1)) := by
    funext w'
    rw [applyWrite_dir, applyWrite_name]
  cases hfind : L.reverse.find? (fun w' => decide (f.dir = w'.1 ∧ f.name = w'.2.1)) with
  | some w0 =>
    have h1 : overwriteBy L (applyWrite w f) = { applyWrite w f with content := w0.2.2 } := by
      apply overwriteBy_eq_some
      rw [hfun]
      exact hfind
    have h2 : overwriteBy (w :: L) f = { f with content := w0.2.2 } := by
      apply overwriteBy_eq_some
      rw [List.reverse_cons, List.find?_append, hfind]
      rfl
    rw [h1, h2, applyWrite_content_override]
  | none =>
    have h1 : overwriteBy L (applyWrite w f) = applyWrite w f := by
      apply overwriteBy_eq_none
      rw [hfun]
      exact hfind
    by_cases hw : f.dir = w.1 ∧ f.name = w.2.1
    · have h2 : overwriteBy (w :: L) f = { f with content := w.2.2 } := by
        apply overwriteBy_eq_some
        rw [List.reverse_cons, List.find?_append, hfind]
        rw [@List.find?_cons_of_pos _ (fun w' => decide (f.dir = w'.1 ∧ f.name = w'.2.1))
            w [] (decide_eq_true hw)]
        rfl
      have h3 : applyWrite w f = { f with content := w.2.2 } := by
        unfold applyWrite
        rw [if_pos hw]
      rw [h1, h2, h3]
    · have h2 : overwriteBy (w :: L) f = f := by
        apply overwriteBy_eq_none
        rw [List.reverse_cons, List.find?_append, hfind]
        have hpredn : ¬(decide (f.dir = w.1 ∧ f.name = w.2.1) = true) := by
          rw [decide_eq_true_eq]
          exact hw
        rw [@List.find?_cons_of_neg _ (fun w' => decide (f.dir = w'.1 ∧ f.name = w'.2.1))
            w [] hpredn]
        rfl
      have h3 : applyWrite w f = f := by
        unfold applyWrite
        rw [if_neg hw]
      rw [h1, h2, h3]

theorem overwriteBy_idem (L : List (String × List Char × List Char)) (f : BrunoFile) :
    overwriteBy L (overwriteBy L f) = overwriteBy L f := by
  have hfun : (fun w' : String × List Char × List Char =>
      decide ((overwriteBy L f).dir = w'.1 ∧ (overwriteBy L f).name = w'.2.1)) =
      (fun w' => decide (f.dir = w'.1 ∧ f.name = w'.2.1)) := by
    funext w'
    rw [overwriteBy_dir, overwriteBy_name]
  cases hfind : L.reverse.find? (fun w' => decide (f.dir = w'.1 ∧ f.name = w'.2.1)) with
  | some w0 =>
    have h1 : overwriteBy L f = { f with content := w0.2.2 } :=
      overwriteBy_eq_some L f w0 hfind
    have h2 : overwriteBy L (overwriteBy L f) = { overwriteBy L f with content := w0.2.2 } := by
      apply overwriteBy_eq_some
      rw [hfun]
      exact hfind
    rw [h2, h1]
  | none =>
    have h1 : overwriteBy L f = f := overwriteBy_eq_none L f hfind
    rw [h1]
    exact h1

theorem applyWrites_eq_map :
    ∀ (L : List (String × List Char × List Char)) (ws : List BrunoFile),
      applyWrites ws L = ws.map (overwriteBy L) := by
  intro L
  induction L with
  | nil =>
    intro ws
    have hid : ∀ (l : List BrunoFile), l.map (overwriteBy []) = l := by
      intro l
      induction l with
      | nil => rfl
      | cons g gs ihg =>
        rw [List.map_cons, ihg]
        rfl
    rw [hid]
    rfl
  | cons w L ih =>
    intro ws
    show applyWrites (ws.map (applyWrite w)) L = ws.map (overwriteBy (w :: L))
    rw [ih, List.map_map]
    apply List.map_congr_left
    intro f _
    show overwriteBy L (applyWrite w f) = overwriteBy (w :: L) f
    exact overwriteBy_cons w L f

theorem applyWrites_idem (L : List (String × List Char × List Char))
    (ws : List BrunoFile) :
    applyWrites (applyWrites ws L) L = applyWrites ws L := by
  rw [applyWrites_eq_map, applyWrites_eq_map, List.map_map]
  apply List.map_congr_left
  intro f _
  show overwriteBy L (overwriteBy L f) = overwriteBy L f
  exact overwriteBy_idem L f

theorem revertFold_spec (copyOk : String → List Char → Bool) (ws0 : List BrunoFile) :
    ∀ (baks : List BrunoFile) (cur : List BrunoFile) (cnt : Nat) (ms : List RevertMsg),
      cur.map fileKey = ws0.map fileKey →
      (∀ b ∈ baks, isBakName b.name = true) →
      (∀ b ∈ baks, findFile cur b.dir b.name = some b) →
      baks.foldl (revertStep copyOk) ⟨cur, cnt, ms⟩ =
        ⟨applyWrites cur (writesOf ws0 copyOk baks),
         cnt + (writesOf ws0 copyOk baks).length,
         ms ++ baks.map (msgOf ws0 copyOk)⟩ := by
  intro baks
  induction baks with
  | nil =>
    intro cur cnt ms _ _ _
    simp [writesOf, applyWrites]
  | cons b baks ih =>
    intro cur cnt ms hk hb hf
    have hbb : isBakName b.name = true := hb b (List.mem_cons_self b baks)
    have hfb : findFile cur b.dir b.name = some b := hf b (List.mem_cons_self b baks)
    have hnotbak : isBakName (bakToBru b.name) = false := isBakName_bakToBru b.name hbb
    have hex : existsFile cur b.dir (bakToBru b.name) =
        existsFile ws0 b.dir (bakToBru b.name) :=
      existsFile_congr cur ws0 hk b.dir (bakToBru b.name)
    show baks.foldl (revertStep copyOk) (revertStep copyOk ⟨cur, cnt, ms⟩ b) = _
    by_cases he : existsFile ws0 b.dir (bakToBru b.name) = true
    · by_cases hco : copyOk b.dir b.name = true
      · have hstep : revertStep copyOk ⟨cur, cnt, ms⟩ b =
            ⟨setContent cur b.dir (bakToBru b.name) b.content, cnt + 1,
             ms ++ [.reverted b.dir (bakToBru b.name)]⟩ := by
          unfold revertStep
          simp only [hex, he, hco, if_true, ite_true, hfb]
        have hb' : ∀ b' ∈ baks, isBakName b'.name = true :=
          fun b' hbm => hb b' (List.mem_cons_of_mem b hbm)
        have hf' : ∀ b' ∈ baks,
            findFile (setContent cur b.dir (bakToBru b.name) b.content) b'.dir b'.name =
              some b' := by
          intro b' hbm
          rw [findFile_setContent_ne]
          · exact hf b' (List.mem_cons_of_mem b hbm)
          · intro hcon
            have hbak' := hb b' (List.mem_cons_of_mem b hbm)
            rw [hcon, hnotbak] at hbak'
            cases hbak'
        have hk' : (setContent cur b.dir (bakToBru b.name) b.content).map fileKey =
            ws0.map fileKey := by
          rw [map_fileKey_setContent]
          exact hk
        rw [hstep, ih (setContent cur b.dir (bakToBru b.name) b.content) (cnt + 1)
          (ms ++ [RevertMsg.reverted b.dir (bakToBru b.name)]) hk' hb' hf']
        have hsw : stepWrite ws0 copyOk b = some (b.dir, bakToBru b.name, b.content) := by
          unfold stepWrite
          rw [he, hco]
          rfl
        have hwrites : writesOf ws0 copyOk (b :: baks) =
            (b.dir, bakToBru b.name, b.content) :: writesOf ws0 copyOk baks := by
          unfold writesOf
          rw [List.filterMap_cons, hsw]
        have hmsg : msgOf ws0 copyOk b = .reverted b.dir (bakToBru b.name) := by
          unfold msgOf
          simp only [he, hco, if_true, ite_true]
        rw [hwrites]
        simp only [List.map_cons, hmsg, List.length_cons, RevertResult.mk.injEq]
        refine ⟨rfl, by omega, by simp⟩
      · have hco' : copyOk b.dir b.name = false := by
          cases hcob : copyOk b.dir b.name with
          | false => rfl
          | true => exact absurd hcob hco
        have hstep : revertStep copyOk ⟨cur, cnt, ms⟩ b =
            ⟨cur, cnt, ms ++ [.copyError b.dir (bakToBru b.name)]⟩ := by
          unfold revertStep
          simp only [hex, he, hco', if_true, ite_true, Bool.false_eq_true,
            if_false, ite_false]
        rw [hstep, ih cur cnt (ms ++ [RevertMsg.copyError b.dir (bakToBru b.name)]) hk
          (fun b' hbm => hb b' (List.mem_cons_of_mem b hbm))
          (fun b' hbm => hf b' (List.mem_cons_of_mem b hbm))]
        have hsw : stepWrite ws0 copyOk b = none := by
          unfold stepWrite
          rw [he, hco']
          rfl
        have hmsg : msgOf ws0 copyOk b = .copyError b.dir (bakToBru b.name) := by
          unfold msgOf
          simp only [he, hco', if_true, ite_true, Bool.false_eq_true, if_false, ite_false]
        have hwrites : writesOf ws0 copyOk (b :: baks) = writesOf ws0 copyOk baks := by
          unfold writesOf
          rw [List.filterMap_cons, hsw]
        rw [hwrites]
        simp [hmsg]
    · have he' : existsFile ws0 b.dir (bakToBru b.name) = false := by
        cases heb : existsFile ws0 b.dir (bakToBru b.name) with
        | false => rfl
        | true => exact absurd heb he
      have hstep : revertStep copyOk ⟨cur, cnt, ms⟩ b =
          ⟨cur, cnt, ms ++ [.notFound b.dir (bakToBru b.name)]⟩ := by
        unfold revertStep
        simp only [hex, he', Bool.false_eq_true, if_false, ite_false]
      rw [hstep, ih cur cnt (ms ++ [RevertMsg.notFound b.dir (bakToBru b.name)]) hk
        (fun b' hbm => hb b' (List.mem_cons_of_mem b hbm))
        (fun b' hbm => hf b' (List.mem_cons_of_mem b hbm))]
      have hsw : stepWrite ws0 copyOk b = none := by
        unfold stepWrite
        rw [he']
        rfl
      have hmsg : msgOf ws0 copyOk b = .notFound b.dir (bakToBru b.name) := by
        unfold msgOf
        simp only [he', Bool.false_eq_true, if_false, ite_false]
      have hwrites : writesOf ws0 copyOk (b :: baks) = writesOf ws0 copyOk baks := by
        unfold writesOf
        rw [List.filterMap_cons, hsw]
      rw [hwrites]
      simp [hmsg]

theorem revert_spec (copyOk : String → List Char → Bool) (ws : List BrunoFile)
    (hnd : (ws.map fileKey).Nodup) :
    revert_bruno_files copyOk ws =
      ⟨applyWrites ws (writesOf ws copyOk (ws.filter (fun f => isBakName f.name))),
       (writesOf ws copyOk (ws.filter (fun f => isBakName f.name))).length,
       (ws.filter (fun f => isBakName f.name)).map (msgOf ws copyOk)⟩ := by
  unfold revert_bruno_files
  rw [revertFold_spec copyOk ws (ws.filter (fun f => isBakName f.name)) ws 0 [] rfl
    (fun b hbm => (List.mem_filter.mp hbm).2)
    (fun b hbm => findFile_self ws hnd b (List.mem_filter.mp hbm).1)]
  simp

/-- Claim C6: revert is idempotent.  For every workspace (a filesystem,
so file keys are distinct), running revert twice in a row yields the
same final working-file contents as running it once, and revert never
deletes or modifies backup files. -/
theorem revert_idempotent (copyOk : String → List Char → Bool)
    (ws : List BrunoFile) (hnd : (ws.map fileKey).Nodup) :
    (revert_bruno_files copyOk (revert_bruno_files copyOk ws).fs).fs =
      (revert_bruno_files copyOk ws).fs ∧
    (revert_bruno_files copyOk ws).fs.filter (fun f => isBakName f.name) =
      ws.filter (fun f => isBakName f.name) := by
  have hspec1 := revert_spec copyOk ws hnd
  have hWnotbak : ∀ w ∈ writesOf ws copyOk (ws.filter (fun f => isBakName f.name)),
      isBakName w.2.1 = false := by
    intro w hw
    unfold writesOf at hw
    obtain ⟨b, hbmem, hsw⟩ := List.mem_filterMap.mp hw
    unfold stepWrite at hsw
    by_cases hc : (existsFile ws b.dir (bakToBru b.name) && copyOk b.dir b.name) = true
    · rw [if_pos hc] at hsw
      injection hsw with hsw'
      rw [← hsw']
      exact isBakName_bakToBru b.name (List.mem_filter.mp hbmem).2
    · rw [if_neg hc] at hsw
      cases hsw
  have hfs1 : (revert_bruno_files copyOk ws).fs =
      applyWrites ws (writesOf ws copyOk (ws.filter (fun f => isBakName f.name))) := by
    rw [hspec1]
  have hfilter : (applyWrites ws
        (writesOf ws copyOk (ws.filter (fun f => isBakName f.name)))).filter
        (fun f => isBakName f.name) =
      ws.filter (fun f => isBakName f.name) :=
    filter_isBak_applyWrites _ ws hWnotbak
  refine ⟨?_, by rw [hfs1]; exact hfilter⟩
  rw [hfs1]
  have hkeys : (applyWrites ws
        (writesOf ws copyOk (ws.filter (fun f => isBakName f.name)))).map fileKey =
      ws.map fileKey := map_fileKey_applyWrites _ ws
  have hbk : ∀ b ∈ ws.filter (fun f => isBakName f.name), isBakName b.name = true :=
    fun b hbm => (List.mem_filter.mp hbm).2
  have hff : ∀ b ∈ ws.filter (fun f => isBakName f.name),
      findFile (applyWrites ws
        (writesOf ws copyOk (ws.filter (fun f => isBakName f.name)))) b.dir b.name =
        some b := by
    intro b hbm
    rw [findFile_applyWrites_ne]
    · exact findFile_self ws hnd b (List.mem_filter.mp hbm).1
    · intro w hw hcon
      have h1 := hWnotbak w hw
      rw [← hcon] at h1
      have h2 := (List.mem_filter.mp hbm).2
      rw [h1] at h2
      cases h2
  unfold revert_bruno_files
  rw [hfilter]
  rw [revertFold_spec copyOk ws (ws.filter (fun f => isBakName f.name))
    (applyWrites ws (writesOf ws copyOk (ws.filter (fun f => isBakName f.name))))
    0 [] hkeys hbk hff]
  show applyWrites (applyWrites ws _) _ = _
  exact applyWrites_idem _ ws

theorem revert_idempotent_witness :
    (revert_bruno_files (fun _ _ => true)
        (revert_bruno_files (fun _ _ => true)
          [⟨"Users", ['a', '.', 'b', 'a', 'k'], ['o']⟩,
           ⟨"Users", ['a', '.', 'b', 'r', 'u'], ['n']⟩]).fs).fs =
      (revert_bruno_files (fun _ _ => true)
        [⟨"Users", ['a', '.', 'b', 'a', 'k'], ['o']⟩,
         ⟨"Users", ['a', '.', 'b', 'r', 'u'], ['n']⟩]).fs :=
  (revert_idempotent (fun _ _ => true)
    [⟨"Users", ['a', '.', 'b', 'a', 'k'], ['o']⟩,
     ⟨"Users", ['a', '.', 'b', 'r', 'u'], ['n']⟩] (by decide)).1

/-- Claim C7: revert returns the count of files successfully copied
from backup; a backup whose working file is missing, or whose copy
fails, produces a warning or error line and is not counted; a
workspace with no backup files yields a count of 0; and the revert
subcommand exits 0 on an existing workspace directory whatever the
count. -/
theorem revert_count_and_messages (copyOk : String → List Char → Bool)
    (ws : List BrunoFile) (hnd : (ws.map fileKey).Nodup) :
    (revert_bruno_files copyOk ws).count =
      (ws.filter (fun f => isBakName f.name)).countP
        (fun b => existsFile ws b.dir (bakToBru b.name) && copyOk b.dir b.name) ∧
    (revert_bruno_files copyOk ws).msgs =
      (ws.filter (fun f => isBakName f.name)).map (msgOf ws copyOk) ∧
    (∀ b : BrunoFile, existsFile ws b.dir (bakToBru b.name) = false →
      msgOf ws copyOk b = .notFound b.dir (bakToBru b.name)) ∧
    (∀ b : BrunoFile, existsFile ws b.dir (bakToBru b.name) = true →
      copyOk b.dir b.name = false →
      msgOf ws copyOk b = .copyError b.dir (bakToBru b.name)) ∧
    (ws.filter (fun f => isBakName f.name) = [] →
      (revert_bruno_files copyOk ws).count = 0) ∧
    (revertCommand true copyOk ws).2 = 0 := by
  have hspec := revert_spec copyOk ws hnd
  have hlen : ∀ l : List BrunoFile,
      (l.filterMap (stepWrite ws copyOk)).length =
        l.countP (fun b => existsFile ws b.dir (bakToBru b.name) && copyOk b.dir b.name) := by
    intro l
    induction l with
    | nil => rfl
    | cons b bs ih =>
      rw [List.countP_cons]
      by_cases hc : (existsFile ws b.dir (bakToBru b.name) && copyOk b.dir b.name) = true
      · have hsw : stepWrite ws copyOk b = some (b.dir, bakToBru b.name, b.content) := by
          unfold stepWrite
          rw [if_pos hc]
        rw [List.filterMap_cons, hsw, List.length_cons, ih, hc]
        simp
      · have hsw : stepWrite ws copyOk b = none := by
          unfold stepWrite
          rw [if_neg hc]
        have hc' : (existsFile ws b.dir (bakToBru b.name) && copyOk b.dir b.name) = false := by
          cases hcb : (existsFile ws b.dir (bakToBru b.name) && copyOk b.dir b.name) with
          | false => rfl
          | true => exact absurd hcb hc
        rw [List.filterMap_cons, hsw, ih, hc']
        simp
  refine ⟨?_, by rw [hspec], ?_, ?_, ?_, rfl⟩
  · rw [hspec]
    exact hlen _
  · intro b hb2
    unfold msgOf
    simp only [hb2, Bool.false_eq_true, if_false, ite_false]
  · intro b hb2 hb3
    unfold msgOf
    simp only [hb2, hb3, if_true, ite_true, Bool.false_eq_true, if_false, ite_false]
  · intro hempty
    rw [hspec]
    show (writesOf ws copyOk (ws.filter (fun f => isBakName f.name))).length = 0
    rw [hempty]
    rfl

theorem revert_count_and_messages_witness :
    (revertCommand true (fun _ _ => true)
        [⟨"Users", ['a', '.', 'b', 'a', 'k'], ['o']⟩,
         ⟨"Users", ['a', '.', 'b', 'r', 'u'], ['n']⟩]).2 = 0 :=
  (revert_count_and_messages (fun _ _ => true)
    [⟨"Users", ['a', '.', 'b', 'a', 'k'], ['o']⟩,
     ⟨"Users", ['a', '.', 'b', 'r', 'u'], ['n']⟩] (by decide)).2.2.2.2.2
